import Mathlib

/-!
Shallow embedding of the Data-Cleaning repository's core logic.

The source is a pandas-based cleaning engine (`scripts/data_cleaning.py`)
and a batch analysis orchestrator (`scripts/ai_agent.py`).  Tables are
modelled as a list of column names, a list of column dtypes and a list of
rows; each cell is an `Option ℚ` (`none` models a pandas null / NaN in a
cell position; numeric values are modelled as exact rationals).
-/

/-- pandas column dtypes that matter to the source: the numeric dtype
checks are literally `df[col].dtype in [np.float64, np.int64]`. -/
inductive DType where
  | float64 : DType
  | int64 : DType
  | obj : DType
deriving DecidableEq, Repr

def isNumericD : DType → Bool
  | .float64 => true
  | .int64 => true
  | .obj => false

/-- One table row: one `Option ℚ` cell per column. -/
abbrev Row := List (Option ℚ)

/-- In-memory table (the `pd.DataFrame` held by `DataCleaning.df`). -/
structure Table where
  names : List String
  dtypes : List DType
  rows : List Row
deriving DecidableEq, Repr

/-- Table well-formedness: every row has one cell per column
(spec §3 invariant: all columns have equal length). -/
def Table.WF (t : Table) : Prop :=
  ∀ r ∈ t.rows, r.length = t.names.length

instance (t : Table) : Decidable t.WF := by
  unfold Table.WF; infer_instance

/-- Column `j` of the table, as read by `df[col]`. -/
def getCol (t : Table) (j : ℕ) : List (Option ℚ) :=
  t.rows.map (fun r => r.getD j none)

/-- Overwrite column `j` with the given cells (in-place column update
`df[col] = ...` / `fillna(..., inplace=True)`). -/
def setCol (t : Table) (j : ℕ) (c : List (Option ℚ)) : Table :=
  { t with rows := List.zipWith (fun r v => r.set j v) t.rows c }

/-- Cell at row `i`, column `j` (none when absent). -/
def cellAt (t : Table) (i j : ℕ) : Option ℚ :=
  (t.rows.getD i []).getD j none

/-- `df[col].isnull().any()`. -/
def colHasNull (c : List (Option ℚ)) : Bool :=
  c.any (fun x => x.isNone)

/-- The non-null values of a column, in order (pandas skips NaN in
`mean`, `median`, `mode` and `quantile`). -/
def nonNulls (c : List (Option ℚ)) : List ℚ :=
  c.filterMap id

/-- `fillna(v)`: every null cell becomes `v`; non-null cells unchanged. -/
def fillna (c : List (Option ℚ)) (v : ℚ) : List (Option ℚ) :=
  c.map (fun x => some (x.getD v))

/-- `Series.mean()` over the non-null values. -/
def meanQ (l : List ℚ) : ℚ :=
  l.sum / (l.length : ℚ)

/-- Ascending sort of the values (pandas sorts for `median`, `mode`,
`quantile`). -/
def sortQ (l : List ℚ) : List ℚ :=
  l.insertionSort (fun a b => a ≤ b)

/-- `Series.median()`: middle of the sorted non-null values, or the
average of the two middles for even length. -/
def medianQ (l : List ℚ) : ℚ :=
  let s := sortQ l
  let k := s.length
  if k % 2 = 1 then s.getD (k / 2) 0
  else (s.getD (k / 2 - 1) 0 + s.getD (k / 2) 0) / 2

/-- Keep-first deduplication (used for `drop_duplicates` and for the
distinct values of a column). -/
def dedupKeepFirst {α : Type} [DecidableEq α] : List α → List α → List α
  | _, [] => []
  | seen, x :: xs =>
    if x ∈ seen then dedupKeepFirst seen xs
    else x :: dedupKeepFirst (x :: seen) xs

/-- Highest multiplicity among the values of `l`. -/
def maxCount (l : List ℚ) : ℕ :=
  ((dedupKeepFirst [] l).map (fun v => l.count v)).foldr max 0

/-- `Series.mode()`: the distinct values of maximal multiplicity,
returned sorted ascending (pandas sorts the modes). -/
def modes (l : List ℚ) : List ℚ :=
  sortQ ((dedupKeepFirst [] l).filter (fun v => l.count v = maxCount l))

/-- `fillna(df[col].mean())` guarded exactly as pandas behaves: a column
whose non-null part is empty has mean NaN, so `fillna(NaN)` changes
nothing. -/
def fillWithMean (c : List (Option ℚ)) : List (Option ℚ) :=
  let vals := nonNulls c
  if vals.isEmpty then c else fillna c (meanQ vals)

def fillWithMedian (c : List (Option ℚ)) : List (Option ℚ) :=
  let vals := nonNulls c
  if vals.isEmpty then c else fillna c (medianQ vals)

/-- `mode_values = df[col].mode(); if len(mode_values) > 0:
fillna(mode_values[0])`. -/
def fillWithMode (c : List (Option ℚ)) : List (Option ℚ) :=
  match modes (nonNulls c) with
  | [] => c
  | m :: _ => fillna c m

/-- `fillna(method='ffill')` scan: `prev` is the nearest preceding
non-null value (none at the start). -/
def ffillAux : Option ℚ → List (Option ℚ) → List (Option ℚ)
  | _, [] => []
  | prev, none :: xs => prev :: ffillAux prev xs
  | _, some v :: xs => some v :: ffillAux (some v) xs

def ffillCol (c : List (Option ℚ)) : List (Option ℚ) :=
  ffillAux none c

/-- `fillna(method='bfill')`: a null takes the nearest following
non-null value; trailing nulls stay null. -/
def bfillCol : List (Option ℚ) → List (Option ℚ)
  | [] => []
  | some v :: xs => some v :: bfillCol xs
  | none :: xs => (bfillCol xs).headD none :: bfillCol xs

/-- Dtype of column `j`. -/
def dtypeAt (t : Table) (j : ℕ) : DType :=
  t.dtypes.getD j .obj

/-- One iteration of the `for col in columns` loop of
`DataCleaning.handle_missing_values`, for the column with index `j`.
The branch order and guards mirror the source: `mean`/`median` only on
numeric dtypes, then `mode`, `ffill`, `bfill`, `drop`, and a final
fallback that forward-fills ("For non-numeric columns or unsupported
strategies, use forward fill"). -/
def hmvCol (strategy : String) (t : Table) (j : ℕ) : Table :=
  let c := getCol t j
  if colHasNull c then
    if strategy = "mean" ∧ isNumericD (dtypeAt t j) then
      setCol t j (fillWithMean c)
    else if strategy = "median" ∧ isNumericD (dtypeAt t j) then
      setCol t j (fillWithMedian c)
    else if strategy = "mode" then
      setCol t j (fillWithMode c)
    else if strategy = "ffill" then
      setCol t j (ffillCol c)
    else if strategy = "bfill" then
      setCol t j (bfillCol c)
    else if strategy = "drop" then
      { t with rows := t.rows.filter (fun r => (r.getD j none).isSome) }
    else
      setCol t j (ffillCol c)
  else t

/-- `DataCleaning.handle_missing_values(strategy, columns)`: processes
the selected columns in order, mutating the frame as it goes. -/
def handle_missing_values (t : Table) (strategy : String)
    (columns : List ℕ) : Table :=
  columns.foldl (hmvCol strategy) t

/-- `handle_missing_values` with `columns=None`, i.e. all columns. -/
def handle_missing_values_all (t : Table) (strategy : String) : Table :=
  handle_missing_values t strategy (List.range t.names.length)

/-- `DataCleaning.remove_duplicates`: `drop_duplicates` keeps the first
occurrence of each row value, preserving order. -/
def remove_duplicates (t : Table) : Table :=
  { t with rows := dedupKeepFirst [] t.rows }

/-- Python whitespace as stripped by `str.strip` / matched by `\s`. -/
def isSpaceChar (ch : Char) : Bool :=
  ch = ' ' || ch = '\t' || ch = '\n' || ch = '\r' ||
    ch.val = 11 || ch.val = 12

/-- Regex `\w` over ASCII: alphanumeric or underscore. -/
def isWordChar (ch : Char) : Bool :=
  ch.isAlphanum || ch = '_'

def stripChars (l : List Char) : List Char :=
  ((l.dropWhile isSpaceChar).reverse.dropWhile isSpaceChar).reverse

/-- `DataCleaning.clean_column_names` on one name: strip, lowercase,
replace spaces with underscores, drop every character that is neither a
word character nor whitespace (`[^\w\s]`). -/
def normalizeName (s : String) : String :=
  let l1 := stripChars s.toList
  let l2 := l1.map Char.toLower
  let l3 := l2.map (fun ch => if ch = ' ' then '_' else ch)
  String.mk (l3.filter (fun ch => isWordChar ch || isSpaceChar ch))

def clean_column_names (t : Table) : Table :=
  { t with names := t.names.map normalizeName }

/-- `DataCleaning.clean_data`: remove duplicates, normalize names, then
forward-fill missing values. -/
def clean_data (t : Table) : Table :=
  handle_missing_values_all (clean_column_names (remove_duplicates t)) "ffill"

/-- `Series.quantile(q)` with pandas' default linear interpolation
between order statistics, on an ascending-sorted list. -/
def quantileQ (q : ℚ) (s : List ℚ) : ℚ :=
  let pos : ℚ := q * ((s.length : ℚ) - 1)
  let i : ℕ := pos.floor.toNat
  let frac : ℚ := pos - (pos.floor : ℚ)
  match s.get? (i + 1) with
  | some vnext => s.getD i 0 + frac * (vnext - s.getD i 0)
  | none => s.getD i 0

/-- One iteration of the IQR loop of `DataCleaning.remove_outliers`:
skip a column that is absent or non-numeric; otherwise compute Q1/Q3 on
the current frame and keep only the rows inside
`[Q1 - threshold*IQR, Q3 + threshold*IQR]` (a null cell compares false
on both sides, hence is kept, as NaN comparisons are in pandas).  A
column with no non-null values has NaN quantiles, so no row is dropped. -/
def iqrStep (th : ℚ) (t : Table) (c : String) : Table :=
  match List.findIdx? (fun nm => nm = c) t.names with
  | none => t
  | some j =>
    if isNumericD (dtypeAt t j) then
      let vals := nonNulls (getCol t j)
      if vals.isEmpty then t
      else
        let q1 := quantileQ (1/4) (sortQ vals)
        let q3 := quantileQ (3/4) (sortQ vals)
        let iqr := q3 - q1
        let lo := q1 - th * iqr
        let hi := q3 + th * iqr
        { t with rows := t.rows.filter (fun r =>
            match r.getD j none with
            | none => true
            | some v => !(decide (v < lo) || decide (hi < v))) }
    else t

/-- `Series.var(ddof=0)`: population variance of the values. -/
def varQ (l : List ℚ) : ℚ :=
  (l.map (fun x => (x - meanQ l) ^ 2)).sum / (l.length : ℚ)

/-- The numeric value of a cell of `r` in column `j` (only meaningful
when the cell is non-null). -/
def cellNum (r : Row) (j : ℕ) : ℚ :=
  (r.getD j none).getD 0

/-- Indices of `columns` that are present in the table with a numeric
dtype — the `numeric_cols` list of the zscore branch. -/
def numericSel (t : Table) (columns : List String) : List ℕ :=
  columns.filterMap (fun c =>
    match List.findIdx? (fun nm => nm = c) t.names with
    | none => none
    | some j => if isNumericD (dtypeAt t j) then some j else none)

/-- The boolean mask entry `(np.abs(zscore(df[numeric_cols])) <
threshold).all(axis=1)` for one row.  scipy's `zscore` uses population
standard deviation and propagates NaN: a column containing a null, or a
column with zero variance, yields NaN z-scores for the whole column, and
`NaN < threshold` is false — so the mask is false for every row.  For a
clean column with nonzero variance, `|x - mean| / stddev < threshold`
is encoded square-free as `0 < threshold ∧ (x-mean)² < threshold²·var`. -/
def zscoreKeep (t : Table) (js : List ℕ) (th : ℚ) (r : Row) : Bool :=
  js.all (fun j =>
    let c := getCol t j
    if colHasNull c then false
    else
      let vals := nonNulls c
      if varQ vals = 0 then false
      else decide (0 < th) &&
        decide ((cellNum r j - meanQ vals) ^ 2 < th ^ 2 * varQ vals))

/-- `DataCleaning.remove_outliers(columns, method, threshold)`.  The IQR
branch filters column by column (each filtered frame is the next
column's input); the zscore branch computes one joint mask from the
current frame and applies it once; any other method is a no-op. -/
def remove_outliers (t : Table) (columns : List String) (method : String)
    (threshold : ℚ) : Table :=
  if method = "iqr" then
    columns.foldl (iqrStep threshold) t
  else if method = "zscore" then
    let js := numericSel t columns
    if js.isEmpty then t
    else { t with rows := t.rows.filter (zscoreKeep t js threshold) }
  else t

/-- `DataCleaning.fix_data_types(column_types)`: for each requested
`(column, type-tag)` pair, look the column up and convert it; a missing
column (`KeyError` on `self.df[col]`) or a failing conversion is caught
by the `except` clause, which prints a message and moves on — the frame
is left unchanged for that column and the call never fails.  The value
conversion itself (`astype` / `pd.to_datetime`) is supplied as `conv`,
returning the new cells and new dtype or a failure. -/
def fix_data_types
    (conv : String → List (Option ℚ) → Except String (List (Option ℚ) × DType))
    (t : Table) (column_types : List (String × String)) :
    Table × List String :=
  column_types.foldl (fun acc p =>
    match List.findIdx? (fun nm => nm = p.1) acc.1.names with
    | none =>
      (acc.1, acc.2 ++
        ["Could not convert column " ++ p.1 ++ " to type " ++ p.2])
    | some j =>
      match conv p.2 (getCol acc.1 j) with
      | .error _ =>
        (acc.1, acc.2 ++
          ["Could not convert column " ++ p.1 ++ " to type " ++ p.2])
      | .ok c =>
        ({ acc.1 with
            rows := (setCol acc.1 j c.1).rows,
            dtypes := acc.1.dtypes.set j c.2 }, acc.2)) (t, [])

/-! ## The batch analysis orchestrator (`scripts/ai_agent.py`) -/

/-- One entry of the list returned by `AIAgent.process_data` — exactly
the keys of the dict built in the source (there is no `failed` key). -/
structure BatchResult where
  batch_number : ℕ
  rows_processed : ℕ
  analysis : String
deriving DecidableEq, Repr

/-- The batch prompt of `process_data`: the f-string around the
serialized rows.  Row serialization (`f"Row {idx}: {row.to_dict()}"`) is
an external-interface concern, abstracted as `rowText`. -/
def promptFor (rowText : ℕ → Row → String) (i : ℕ) (batch : List Row) :
    String :=
  "\nYou are an AI Data Cleaning Agent. Analyze the dataset:\n" ++
  String.join (batch.enum.map (fun p => rowText (i + p.1) p.2)) ++
  "\n\nPlease provide:\n1. Data quality assessment\n" ++
  "2. Missing value analysis\n3. Outlier detection\n" ++
  "4. Recommended cleaning steps\n5. Data type corrections needed\n\n" ++
  "Format your response as structured text with clear sections.\n"

/-- The body of the `for i in range(0, len(df), batch_size)` loop for
start index `i`: slice the batch, build the prompt, invoke the graph;
on success record the structured response, on exception record
`"Error: " + str(e)` and continue. -/
def batchResultAt (invoke : String → Except String String)
    (rowText : ℕ → Row → String) (rows : List Row) (bs i : ℕ) :
    BatchResult :=
  let df_batch := (rows.drop i).take bs
  match invoke (promptFor rowText i df_batch) with
  | .ok s => ⟨i / bs + 1, df_batch.length, s⟩
  | .error e => ⟨i / bs + 1, df_batch.length, "Error: " ++ e⟩

/-- `AIAgent.process_data(df, batch_size)`.  `range(0, n, 0)` raises
`ValueError` before any iteration; `range(0, n, step)` with negative
`step` is empty for `n ≥ 0`, so the loop never runs and `[]` is
returned; for positive `batch_size` the loop visits start indices
`0, bs, 2·bs, …`, i.e. `⌈n / bs⌉` of them. -/
def process_data (invoke : String → Except String String)
    (rowText : ℕ → Row → String) (rows : List Row) (batch_size : ℤ) :
    Except String (List BatchResult) :=
  if batch_size = 0 then
    .error "range() arg 3 must not be zero"
  else if batch_size < 0 then
    .ok []
  else
    let bs := batch_size.toNat
    .ok (((List.range ((rows.length + bs - 1) / bs)).map (fun j => j * bs)).map
      (batchResultAt invoke rowText rows bs))

/-! ## Derived spec-side quantities and concrete fixtures -/

/-- Q1 of a column (25th percentile, linear interpolation). -/
def q1Of (t : Table) (j : ℕ) : ℚ :=
  quantileQ (1/4) (sortQ (nonNulls (getCol t j)))

/-- Q3 of a column (75th percentile, linear interpolation). -/
def q3Of (t : Table) (j : ℕ) : ℚ :=
  quantileQ (3/4) (sortQ (nonNulls (getCol t j)))

/-- `IQR = Q3 - Q1` of a column. -/
def iqrOf (t : Table) (j : ℕ) : ℚ := q3Of t j - q1Of t j

/-- Modelled from the spec: the tie-break the spec describes for `mode`
imputation — "the value that appears first in the column's
first-occurrence order among tied modes".  (The source instead takes the
head of pandas' ascending-sorted mode list.) -/
def modeFirstOccSpec (l : List ℚ) : Option ℚ :=
  ((dedupKeepFirst [] l).filter (fun v => l.count v = maxCount l)).head?

/-- A capability that always succeeds. -/
def capOk : String → Except String String := fun _ => .ok "ok"

/-- A concrete row serializer for the fixtures. -/
def rowTextC : ℕ → Row → String := fun i _ => toString i ++ ";"

/-- Three one-cell-free rows. -/
def rows3 : List Row := [[], [], []]

/-- Forty-five empty rows (the spec's batch-conservation example). -/
def rows45 : List Row := List.replicate 45 ([] : Row)

/-- The prompt `process_data` builds for the second of three singleton
batches over `rows3`. -/
def p2 : String := promptFor rowTextC 1 [([] : Row)]

/-- A capability failing exactly on the second batch's prompt. -/
def capA : String → Except String String :=
  fun s => if s = p2 then .error "boom" else .ok "ok"

/-- A capability succeeding everywhere, answering the second batch's
prompt with the same text the failure path would record. -/
def capB : String → Except String String :=
  fun s => if s = p2 then .ok ("Error: " ++ "boom") else .ok "ok"

/-- A trivial conversion capability for `fix_data_types`. -/
def convC : String → List (Option ℚ) →
    Except String (List (Option ℚ) × DType) :=
  fun _ c => .ok (c, .obj)

/-- One nullable column, rows `[1, null]`: forward-fill duplicates the
first row. -/
def t0c : Table := ⟨["a"], [.obj], [[some 1], [none]]⟩

/-- No nulls, distinct rows, name `"A B"` normalizing to `"a_b"`. -/
def t4w : Table := ⟨["A B"], [.obj], [[some 1], [some 2]]⟩

/-- The spec's mode-tie example `[1, 2, 2, 1, null]`. -/
def t5w : Table :=
  ⟨["a"], [.float64], [[some 1], [some 2], [some 2], [some 1], [none]]⟩

/-- Tied modes in reversed first-occurrence order `[2, 2, 1, 1, null]`. -/
def t5c : Table :=
  ⟨["a"], [.float64], [[some 2], [some 2], [some 1], [some 1], [none]]⟩

/-- A constant numeric column (zero standard deviation). -/
def t6 : Table := ⟨["a"], [.float64], [[some 5], [some 5], [some 5]]⟩

/-- A numeric column `[1, 2, 3]` with nonzero variance. -/
def t6b : Table := ⟨["a"], [.float64], [[some 1], [some 2], [some 3]]⟩

/-- One nullable column `[1, null]`. -/
def t7w : Table := ⟨["a"], [.obj], [[some 1], [none]]⟩

/-- A single-column table used for missing-column probes. -/
def t8 : Table := ⟨["a"], [.float64], [[some 1]]⟩

/-- The spec's IQR example: column `[1, 2, 3, 4, 5, 100]`. -/
def tEx : Table :=
  ⟨["v"], [.int64],
    [[some 1], [some 2], [some 3], [some 4], [some 5], [some 100]]⟩

/-- Two numeric columns, one with a null. -/
def t10 : Table :=
  ⟨["a", "b"], [.float64, .float64], [[some 1, some 5], [none, some 6]]⟩

/-! ## List-level helper lemmas -/

theorem getD_set_ne {α : Type} (r : List α) (j k : ℕ) (v d : α)
    (h : j ≠ k) : (r.set k v).getD j d = r.getD j d := by
  induction r generalizing j k with
  | nil => simp [List.set]
  | cons a as ih =>
    cases k with
    | zero =>
      cases j with
      | zero => exact absurd rfl h
      | succ j => simp [List.set, List.getD]
    | succ k =>
      cases j with
      | zero => simp [List.set, List.getD]
      | succ j =>
        simp only [List.set, List.getD_cons_succ]
        exact ih j k (by omega)

theorem getD_set_self {α : Type} (r : List α) (j : ℕ) (v d : α)
    (h : j < r.length) : (r.set j v).getD j d = v := by
  induction r generalizing j with
  | nil => simp at h
  | cons a as ih =>
    cases j with
    | zero => simp [List.set, List.getD]
    | succ j =>
      simp only [List.set, List.getD_cons_succ]
      exact ih j (by simpa using h)

theorem set_getD_self {α : Type} (r : List α) (j : ℕ) (d : α) :
    r.set j (r.getD j d) = r := by
  induction r generalizing j with
  | nil => simp
  | cons a as ih =>
    cases j with
    | zero => simp [List.set, List.getD]
    | succ j =>
      simp only [List.getD_cons_succ, List.set]
      rw [ih j]

theorem getD_of_length_le {α : Type} (r : List α) (j : ℕ) (d : α)
    (h : r.length ≤ j) : r.getD j d = d := by
  induction r generalizing j with
  | nil => simp [List.getD]
  | cons a as ih =>
    cases j with
    | zero => simp at h
    | succ j => simpa [List.getD_cons_succ] using ih j (by simpa using h)

theorem lt_length_of_getD_eq_some (r : List (Option ℚ)) (j : ℕ) (v : ℚ)
    (h : r.getD j none = some v) : j < r.length := by
  by_contra hn
  rw [getD_of_length_le r j none (by omega)] at h
  exact Option.noConfusion h

theorem get?_zipWith {α β γ : Type} (f : α → β → γ) (as : List α)
    (bs : List β) (i : ℕ) :
    (List.zipWith f as bs).get? i =
      match as.get? i, bs.get? i with
      | some a, some b => some (f a b)
      | _, _ => none := by
  induction as generalizing bs i with
  | nil => cases bs <;> simp
  | cons a as ih =>
    cases bs with
    | nil => simp
    | cons b bs =>
      cases i with
      | zero => simp
      | succ i => simpa using ih bs i

theorem all_congr_of_mem {α : Type} (l : List α) (f g : α → Bool)
    (h : ∀ a ∈ l, f a = g a) : l.all f = l.all g := by
  induction l with
  | nil => rfl
  | cons a as ih =>
    simp only [List.all_cons]
    rw [h a (by simp), ih (fun b hb => h b (by simp [hb]))]

theorem foldl_eq_self {α β : Type} (f : α → β → α) (t : α) (l : List β)
    (h : ∀ x ∈ l, f t x = t) : l.foldl f t = t := by
  induction l with
  | nil => rfl
  | cons x xs ih =>
    simp only [List.foldl_cons, h x (by simp)]
    exact ih (fun y hy => h y (by simp [hy]))

theorem mem_dedupKeepFirst_of_mem {α : Type} [DecidableEq α]
    (l : List α) (seen : List α) (x : α) (hx : x ∈ l) :
    x ∈ seen ∨ x ∈ dedupKeepFirst seen l := by
  induction l generalizing seen with
  | nil => simp at hx
  | cons y ys ih =>
    rcases List.mem_cons.mp hx with rfl | hmem
    · by_cases hy : x ∈ seen
      · exact Or.inl hy
      · right; rw [dedupKeepFirst, if_neg hy]; simp
    · by_cases hy : y ∈ seen
      · rw [dedupKeepFirst, if_pos hy]; exact ih seen hmem
      · rw [dedupKeepFirst, if_neg hy]
        rcases ih (y :: seen) hmem with hs | hr
        · rcases List.mem_cons.mp hs with rfl | hs
          · right; simp
          · exact Or.inl hs
        · right; simp [hr]

theorem le_foldr_max_of_mem (xs : List ℕ) (x : ℕ) (hx : x ∈ xs) :
    x ≤ xs.foldr max 0 := by
  induction xs with
  | nil => simp at hx
  | cons y ys ih =>
    rcases List.mem_cons.mp hx with rfl | hmem
    · exact le_max_left _ _
    · exact le_trans (ih hmem) (le_max_right _ _)

theorem foldr_max_mem (xs : List ℕ) (hne : xs ≠ []) :
    xs.foldr max 0 ∈ xs ∨ xs.foldr max 0 = 0 := by
  induction xs with
  | nil => exact absurd rfl hne
  | cons y ys ih =>
    by_cases hys : ys = []
    · subst hys; left; simp
    · rcases ih hys with hmem | hzero
      · rcases Nat.le_total y (ys.foldr max 0) with hle | hle
        · left
          simp only [List.foldr_cons]
          rw [Nat.max_eq_right hle]
          exact List.mem_cons_of_mem _ hmem
        · left
          simp only [List.foldr_cons]
          rw [Nat.max_eq_left hle]
          simp
      · simp only [List.foldr_cons, hzero]
        rcases Nat.eq_zero_or_pos y with rfl | hy
        · right; simp
        · left; rw [Nat.max_eq_left (by omega)]; simp

/-! ## Table-level helper lemmas -/

theorem zipSet_self (rows : List Row) (j : ℕ) :
    List.zipWith (fun r v => r.set j v) rows
      (rows.map (fun r => r.getD j none)) = rows := by
  induction rows with
  | nil => rfl
  | cons r rs ih =>
    simp only [List.map_cons, List.zipWith_cons_cons]
    rw [set_getD_self, ih]

theorem setCol_getCol_self (t : Table) (j : ℕ) :
    setCol t j (getCol t j) = t := by
  cases t with
  | mk names dtypes rows =>
    simp only [setCol, getCol]
    rw [zipSet_self]

theorem getCol_length (t : Table) (j : ℕ) :
    (getCol t j).length = t.rows.length := by
  simp [getCol]

theorem setCol_names (t : Table) (j : ℕ) (c : List (Option ℚ)) :
    (setCol t j c).names = t.names := rfl

theorem setCol_dtypes (t : Table) (j : ℕ) (c : List (Option ℚ)) :
    (setCol t j c).dtypes = t.dtypes := rfl

theorem setCol_rows_length (t : Table) (j : ℕ) (c : List (Option ℚ))
    (hc : c.length = t.rows.length) :
    (setCol t j c).rows.length = t.rows.length := by
  simp [setCol, hc]

theorem getCol_setCol_ne (t : Table) (j k : ℕ) (c : List (Option ℚ))
    (hc : c.length = t.rows.length) (hjk : j ≠ k) :
    getCol (setCol t k c) j = getCol t j := by
  cases t with
  | mk names dtypes rows =>
    simp only [getCol, setCol] at *
    induction rows generalizing c with
    | nil => simp
    | cons r rs ih =>
      cases c with
      | nil => simp at hc
      | cons v vs =>
        simp only [List.zipWith_cons_cons, List.map_cons]
        rw [getD_set_ne r j k v none hjk, ih vs (by simpa using hc)]

theorem zipSet_map_getD (rows : List Row) (j : ℕ) (c : List (Option ℚ))
    (hc : c.length = rows.length)
    (hwf : ∀ r ∈ rows, j < r.length) :
    (List.zipWith (fun r v => r.set j v) rows c).map
      (fun r => r.getD j none) = c := by
  induction rows generalizing c with
  | nil => cases c <;> simp_all
  | cons r rs ih =>
    cases c with
    | nil => simp at hc
    | cons v vs =>
      simp only [List.zipWith_cons_cons, List.map_cons]
      rw [getD_set_self r j v none (hwf r (by simp))]
      rw [ih vs (by simpa using hc)
        (fun r hr => hwf r (List.mem_cons_of_mem _ hr))]

theorem getCol_setCol_self (t : Table) (j : ℕ) (c : List (Option ℚ))
    (hc : c.length = t.rows.length)
    (hwf : ∀ r ∈ t.rows, j < r.length) :
    getCol (setCol t j c) j = c := by
  simp only [getCol, setCol]
  exact zipSet_map_getD t.rows j c hc hwf

theorem fillna_length (c : List (Option ℚ)) (v : ℚ) :
    (fillna c v).length = c.length := by simp [fillna]

theorem fillWithMean_length (c : List (Option ℚ)) :
    (fillWithMean c).length = c.length := by
  by_cases h : (nonNulls c).isEmpty <;> simp [fillWithMean, h, fillna_length]

theorem fillWithMedian_length (c : List (Option ℚ)) :
    (fillWithMedian c).length = c.length := by
  by_cases h : (nonNulls c).isEmpty <;>
    simp [fillWithMedian, h, fillna_length]

theorem fillWithMode_length (c : List (Option ℚ)) :
    (fillWithMode c).length = c.length := by
  unfold fillWithMode
  split <;> simp [fillna_length]

theorem ffillAux_length (p : Option ℚ) (c : List (Option ℚ)) :
    (ffillAux p c).length = c.length := by
  induction c generalizing p with
  | nil => rfl
  | cons x xs ih => cases x <;> simp [ffillAux, ih]

theorem ffillCol_length (c : List (Option ℚ)) :
    (ffillCol c).length = c.length := ffillAux_length none c

theorem bfillCol_length (c : List (Option ℚ)) :
    (bfillCol c).length = c.length := by
  induction c with
  | nil => rfl
  | cons x xs ih => cases x <;> simp [bfillCol, ih]

theorem fillna_get?_some (c : List (Option ℚ)) (w : ℚ) (i : ℕ) (v : ℚ)
    (h : c.get? i = some (some v)) : (fillna c w).get? i = some (some v) := by
  simp only [fillna, List.get?_map, h, Option.map_some]
  rfl

theorem fillWithMean_get?_some (c : List (Option ℚ)) (i : ℕ) (v : ℚ)
    (h : c.get? i = some (some v)) :
    (fillWithMean c).get? i = some (some v) := by
  by_cases hc : (nonNulls c).isEmpty
  · simpa [fillWithMean, hc] using h
  · simpa [fillWithMean, hc] using fillna_get?_some c _ i v h

theorem fillWithMedian_get?_some (c : List (Option ℚ)) (i : ℕ) (v : ℚ)
    (h : c.get? i = some (some v)) :
    (fillWithMedian c).get? i = some (some v) := by
  by_cases hc : (nonNulls c).isEmpty
  · simpa [fillWithMedian, hc] using h
  · simpa [fillWithMedian, hc] using fillna_get?_some c _ i v h

theorem fillWithMode_get?_some (c : List (Option ℚ)) (i : ℕ) (v : ℚ)
    (h : c.get? i = some (some v)) :
    (fillWithMode c).get? i = some (some v) := by
  unfold fillWithMode
  split
  · exact h
  · exact fillna_get?_some c _ i v h

theorem ffillAux_get?_some (c : List (Option ℚ)) (p : Option ℚ) (i : ℕ)
    (v : ℚ) (h : c.get? i = some (some v)) :
    (ffillAux p c).get? i = some (some v) := by
  induction c generalizing p i with
  | nil => simp at h
  | cons x xs ih =>
    cases x with
    | none =>
      cases i with
      | zero => simp at h
      | succ i => simpa [ffillAux] using ih p i (by simpa using h)
    | some w =>
      cases i with
      | zero => simpa [ffillAux] using h
      | succ i => simpa [ffillAux] using ih (some w) i (by simpa using h)

theorem ffillCol_get?_some (c : List (Option ℚ)) (i : ℕ) (v : ℚ)
    (h : c.get? i = some (some v)) :
    (ffillCol c).get? i = some (some v) :=
  ffillAux_get?_some c none i v h

theorem bfillCol_get?_some (c : List (Option ℚ)) (i : ℕ) (v : ℚ)
    (h : c.get? i = some (some v)) :
    (bfillCol c).get? i = some (some v) := by
  induction c generalizing i with
  | nil => simp at h
  | cons x xs ih =>
    cases x with
    | none =>
      cases i with
      | zero => simp at h
      | succ i => simpa [bfillCol] using ih i (by simpa using h)
    | some w =>
      cases i with
      | zero => simpa [bfillCol] using h
      | succ i => simpa [bfillCol] using ih i (by simpa using h)

theorem ffillAux_of_no_null (c : List (Option ℚ)) (p : Option ℚ)
    (h : colHasNull c = false) : ffillAux p c = c := by
  induction c generalizing p with
  | nil => rfl
  | cons x xs ih =>
    cases x with
    | none => simp [colHasNull] at h
    | some w =>
      simp only [ffillAux]
      rw [ih (some w) (by simpa [colHasNull] using h)]

theorem ffillCol_of_no_null (c : List (Option ℚ))
    (h : colHasNull c = false) : ffillCol c = c :=
  ffillAux_of_no_null c none h

theorem ffillAux_idem (c : List (Option ℚ)) (p : Option ℚ) :
    ffillAux p (ffillAux p c) = ffillAux p c := by
  induction c generalizing p with
  | nil => rfl
  | cons x xs ih =>
    cases x with
    | none =>
      cases p with
      | none => simp only [ffillAux]; rw [ih none]
      | some w => simp only [ffillAux]; rw [ih (some w)]
    | some w => simp only [ffillAux]; rw [ih (some w)]

theorem ffillCol_idem (c : List (Option ℚ)) :
    ffillCol (ffillCol c) = ffillCol c :=
  ffillAux_idem c none

/-! ## Frame-effect machinery for fill-style imputation -/

theorem getD_eq_get?_getD {α : Type} (l : List α) (i : ℕ) (d : α) :
    l.getD i d = (l.get? i).getD d := by
  induction l generalizing i with
  | nil => simp [List.getD]
  | cons a as ih => cases i <;> simp [List.getD, ih]

theorem getCol_get? (t : Table) (j i : ℕ) :
    (getCol t j).get? i = (t.rows.get? i).map (fun r => r.getD j none) := by
  simp [getCol, List.get?_map]

/-- `t'` refines `t` without dropping rows: same shape metadata, same
row count, every originally non-null cell unchanged, and every column
that had no nulls left entirely untouched. -/
def PreservesNN (t t' : Table) : Prop :=
  t'.names = t.names ∧ t'.dtypes = t.dtypes ∧
  t'.rows.length = t.rows.length ∧
  (∀ i j v, cellAt t i j = some v → cellAt t' i j = some v) ∧
  (∀ j, colHasNull (getCol t j) = false → getCol t' j = getCol t j)

theorem preservesNN_refl (t : Table) : PreservesNN t t :=
  ⟨rfl, rfl, rfl, fun _ _ _ h => h, fun _ _ => rfl⟩

theorem preservesNN_trans {t t' t'' : Table} (h1 : PreservesNN t t')
    (h2 : PreservesNN t' t'') : PreservesNN t t'' := by
  obtain ⟨n1, d1, l1, c1, z1⟩ := h1
  obtain ⟨n2, d2, l2, c2, z2⟩ := h2
  refine ⟨n2.trans n1, d2.trans d1, l2.trans l1,
    fun i j v h => c2 i j v (c1 i j v h), fun j hz => ?_⟩
  have hz' := z1 j hz
  rw [z2 j (by rw [hz']; exact hz), hz']

theorem cellAt_setCol_some (t : Table) (k : ℕ) (c : List (Option ℚ))
    (hc : c.length = t.rows.length)
    (hpres : ∀ i v, (getCol t k).get? i = some (some v) →
      c.get? i = some (some v)) :
    ∀ i j v, cellAt t i j = some v → cellAt (setCol t k c) i j = some v := by
  intro i j v h
  by_cases hi : i < t.rows.length
  · obtain ⟨r, hr⟩ : ∃ r, t.rows.get? i = some r :=
      ⟨_, List.get?_eq_get hi⟩
    obtain ⟨w, hw⟩ : ∃ w, c.get? i = some w :=
      ⟨_, List.get?_eq_get (by omega)⟩
    have hrows' : (setCol t k c).rows.get? i = some (r.set k w) := by
      simp only [setCol]
      rw [get?_zipWith, hr, hw]
    have hcell : cellAt t i j = r.getD j none := by
      rw [cellAt, getD_eq_get?_getD t.rows i [], hr]
      rfl
    have hcell' : cellAt (setCol t k c) i j = (r.set k w).getD j none := by
      rw [cellAt, getD_eq_get?_getD (setCol t k c).rows i [], hrows']
      rfl
    rw [hcell] at h
    rw [hcell']
    by_cases hjk : j = k
    · have hgc : (getCol t k).get? i = some (some v) := by
        rw [getCol_get?, hr]
        show some (r.getD k none) = some (some v)
        rw [← hjk, h]
      have hwv : w = some v := by
        have hwv' := hpres i v hgc
        rw [hw] at hwv'
        injection hwv'
      rw [hjk] at h
      rw [hjk, hwv]
      exact getD_set_self r k (some v) none
        (lt_length_of_getD_eq_some r k v h)
    · rw [getD_set_ne r j k w none hjk]
      exact h
  · exfalso
    rw [cellAt, getD_of_length_le t.rows i [] (by omega)] at h
    simp [List.getD] at h

theorem preservesNN_setCol_fill (t : Table) (j : ℕ)
    (f : List (Option ℚ) → List (Option ℚ))
    (hnull : colHasNull (getCol t j) = true)
    (hlen : (f (getCol t j)).length = (getCol t j).length)
    (hsome : ∀ i v, (getCol t j).get? i = some (some v) →
      (f (getCol t j)).get? i = some (some v)) :
    PreservesNN t (setCol t j (f (getCol t j))) := by
  have hlen' : (f (getCol t j)).length = t.rows.length :=
    hlen.trans (getCol_length t j)
  refine ⟨rfl, rfl, setCol_rows_length t j _ hlen',
    cellAt_setCol_some t j _ hlen' hsome, fun j' hz => ?_⟩
  by_cases hjj : j' = j
  · subst hjj; rw [hz] at hnull; exact absurd hnull (by simp)
  · exact getCol_setCol_ne t j' j _ hlen' hjj

theorem preservesNN_hmvCol (strategy : String) (t : Table) (j : ℕ)
    (hs : strategy ≠ "drop") : PreservesNN t (hmvCol strategy t j) := by
  simp only [hmvCol]
  by_cases hnull : colHasNull (getCol t j)
  · rw [if_pos hnull]
    split_ifs with hA hB hC hD hE
    · exact preservesNN_setCol_fill t j fillWithMean hnull
        (fillWithMean_length _) (fillWithMean_get?_some _)
    · exact preservesNN_setCol_fill t j fillWithMedian hnull
        (fillWithMedian_length _) (fillWithMedian_get?_some _)
    · exact preservesNN_setCol_fill t j fillWithMode hnull
        (fillWithMode_length _) (fillWithMode_get?_some _)
    · exact preservesNN_setCol_fill t j ffillCol hnull
        (ffillCol_length _) (ffillCol_get?_some _)
    · exact preservesNN_setCol_fill t j bfillCol hnull
        (bfillCol_length _) (bfillCol_get?_some _)
    · exact preservesNN_setCol_fill t j ffillCol hnull
        (ffillCol_length _) (ffillCol_get?_some _)
  · rw [if_neg hnull]
    exact preservesNN_refl t

theorem preservesNN_handle_missing_values (t : Table) (strategy : String)
    (columns : List ℕ) (hs : strategy ≠ "drop") :
    PreservesNN t (handle_missing_values t strategy columns) := by
  unfold handle_missing_values
  induction columns generalizing t with
  | nil => exact preservesNN_refl t
  | cons j js ih =>
    simp only [List.foldl_cons]
    exact preservesNN_trans (preservesNN_hmvCol strategy t j hs)
      (ih (hmvCol strategy t j))

/-! ## Forward-fill idempotence machinery -/

theorem hmvCol_ffill_eq (t : Table) (j : ℕ) :
    hmvCol "ffill" t j =
      if colHasNull (getCol t j) then setCol t j (ffillCol (getCol t j))
      else t := by
  by_cases hnull : colHasNull (getCol t j)
  · simp [hmvCol, hnull]
  · simp [hmvCol, hnull]

theorem getCol_hmvCol_ffill_self (t : Table) (j : ℕ) (hwf : t.WF)
    (hj : j < t.names.length) :
    getCol (hmvCol "ffill" t j) j = ffillCol (getCol t j) := by
  rw [hmvCol_ffill_eq]
  by_cases hnull : colHasNull (getCol t j)
  · rw [if_pos hnull]
    exact getCol_setCol_self t j _
      ((ffillCol_length _).trans (getCol_length t j))
      (fun r hr => by rw [hwf r hr]; exact hj)
  · rw [if_neg hnull, ffillCol_of_no_null _ (by simpa using hnull)]

theorem getCol_hmvCol_ffill_ne (t : Table) (j k : ℕ) (hjk : j ≠ k) :
    getCol (hmvCol "ffill" t k) j = getCol t j := by
  rw [hmvCol_ffill_eq]
  by_cases hnull : colHasNull (getCol t k)
  · rw [if_pos hnull]
    exact getCol_setCol_ne t j k _
      ((ffillCol_length _).trans (getCol_length t k)) hjk
  · rw [if_neg hnull]

theorem hmvCol_ffill_names (t : Table) (j : ℕ) :
    (hmvCol "ffill" t j).names = t.names := by
  rw [hmvCol_ffill_eq]
  by_cases hnull : colHasNull (getCol t j)
  · rw [if_pos hnull]; rfl
  · rw [if_neg hnull]

theorem WF_setCol (t : Table) (k : ℕ) (c : List (Option ℚ))
    (hwf : t.WF) : (setCol t k c).WF := by
  intro r hr
  obtain ⟨i, hi⟩ := List.get?_of_mem hr
  simp only [setCol] at hi
  rw [get?_zipWith] at hi
  cases hrows : t.rows.get? i with
  | none => rw [hrows] at hi; cases hc : c.get? i <;> rw [hc] at hi <;>
      exact Option.noConfusion hi
  | some r0 =>
    cases hc : c.get? i with
    | none => rw [hrows, hc] at hi; exact Option.noConfusion hi
    | some w =>
      rw [hrows, hc] at hi
      have hr0 : r = r0.set k w := by injection hi with h; exact h.symm
      have : r.length = r0.length := by rw [hr0]; exact List.length_set ..
      rw [this]
      exact hwf r0 (List.get?_mem hrows)

theorem WF_hmvCol_ffill (t : Table) (j : ℕ) (hwf : t.WF) :
    (hmvCol "ffill" t j).WF := by
  rw [hmvCol_ffill_eq]
  by_cases hnull : colHasNull (getCol t j)
  · rw [if_pos hnull]
    exact WF_setCol t j _ hwf
  · rw [if_neg hnull]; exact hwf

theorem foldl_ffill_names (t : Table) (js : List ℕ) :
    (List.foldl (hmvCol "ffill") t js).names = t.names := by
  induction js generalizing t with
  | nil => rfl
  | cons k ks ih =>
    simp only [List.foldl_cons]
    rw [ih (hmvCol "ffill" t k), hmvCol_ffill_names]

theorem foldl_ffill_WF (t : Table) (js : List ℕ) (hwf : t.WF) :
    (List.foldl (hmvCol "ffill") t js).WF := by
  induction js generalizing t with
  | nil => exact hwf
  | cons k ks ih =>
    simp only [List.foldl_cons]
    exact ih (hmvCol "ffill" t k) (WF_hmvCol_ffill t k hwf)

theorem foldl_ffill_getCol_not_mem (t : Table) (js : List ℕ) (j : ℕ)
    (hj : j ∉ js) :
    getCol (List.foldl (hmvCol "ffill") t js) j = getCol t j := by
  induction js generalizing t with
  | nil => rfl
  | cons k ks ih =>
    simp only [List.foldl_cons]
    rw [ih (hmvCol "ffill" t k) (fun hmem => hj (by simp [hmem]))]
    exact getCol_hmvCol_ffill_ne t j k (fun hjk => hj (by simp [hjk]))

theorem foldl_ffill_getCol_mem (t : Table) (js : List ℕ) (j : ℕ)
    (hwf : t.WF) (hj : j < t.names.length) (hnd : js.Nodup)
    (hmem : j ∈ js) :
    getCol (List.foldl (hmvCol "ffill") t js) j = ffillCol (getCol t j) := by
  induction js generalizing t with
  | nil => simp at hmem
  | cons k ks ih =>
    simp only [List.foldl_cons]
    by_cases hkj : j = k
    · subst hkj
      rw [foldl_ffill_getCol_not_mem _ ks j (List.Nodup.not_mem hnd)]
      exact getCol_hmvCol_ffill_self t j hwf hj
    · have hmem' : j ∈ ks := by
        rcases List.mem_cons.mp hmem with h | h
        · exact absurd h hkj
        · exact h
      rw [ih (hmvCol "ffill" t k) (WF_hmvCol_ffill t k hwf)
        (by rw [hmvCol_ffill_names]; exact hj) (List.Nodup.of_cons hnd)
        hmem']
      rw [getCol_hmvCol_ffill_ne t j k hkj]

theorem hmvCol_ffill_fixed (t : Table) (j : ℕ)
    (h : ffillCol (getCol t j) = getCol t j) : hmvCol "ffill" t j = t := by
  rw [hmvCol_ffill_eq]
  by_cases hnull : colHasNull (getCol t j)
  · rw [if_pos hnull, h]
    exact setCol_getCol_self t j
  · rw [if_neg hnull]

theorem hmv_ffill_idem (u : Table) (hwf : u.WF) :
    handle_missing_values_all (handle_missing_values_all u "ffill") "ffill"
      = handle_missing_values_all u "ffill" := by
  unfold handle_missing_values_all handle_missing_values
  rw [foldl_ffill_names u (List.range u.names.length)]
  apply foldl_eq_self
  intro j hj
  apply hmvCol_ffill_fixed
  rw [foldl_ffill_getCol_mem u (List.range u.names.length) j hwf
    (List.mem_range.mp hj) (List.nodup_range _) (by simpa using hj)]
  exact ffillCol_idem (getCol u j)

theorem mem_of_mem_dedupKeepFirst {α : Type} [DecidableEq α]
    (l seen : List α) (x : α) (hx : x ∈ dedupKeepFirst seen l) : x ∈ l := by
  induction l generalizing seen with
  | nil => simp [dedupKeepFirst] at hx
  | cons y ys ih =>
    rw [dedupKeepFirst] at hx
    by_cases hy : y ∈ seen
    · rw [if_pos hy] at hx
      exact List.mem_cons_of_mem _ (ih seen hx)
    · rw [if_neg hy] at hx
      rcases List.mem_cons.mp hx with rfl | hmem
      · simp
      · exact List.mem_cons_of_mem _ (ih (y :: seen) hmem)

theorem WF_remove_duplicates (t : Table) (hwf : t.WF) :
    (remove_duplicates t).WF := by
  intro r hr
  exact hwf r (mem_of_mem_dedupKeepFirst t.rows [] r hr)

theorem WF_clean_column_names (t : Table) (hwf : t.WF) :
    (clean_column_names t).WF := by
  intro r hr
  simp only [clean_column_names, List.length_map]
  exact hwf r hr

/-! ## Mode lemmas -/

theorem dedupKeepFirst_ne_nil {α : Type} [DecidableEq α] (x : α)
    (xs : List α) : dedupKeepFirst [] (x :: xs) ≠ [] := by
  rw [dedupKeepFirst]
  rw [if_neg (by simp)]
  simp

theorem mem_dedup_of_mem (l : List ℚ) (x : ℚ) (hx : x ∈ l) :
    x ∈ dedupKeepFirst [] l := by
  rcases mem_dedupKeepFirst_of_mem l [] x hx with h | h
  · simp at h
  · exact h

theorem count_le_maxCount (l : List ℚ) (v : ℚ) (hv : v ∈ l) :
    l.count v ≤ maxCount l := by
  unfold maxCount
  exact le_foldr_max_of_mem _ _
    (List.mem_map_of_mem _ (mem_dedup_of_mem l v hv))

theorem modes_head_spec (l : List ℚ) (hl : l ≠ []) :
    ∃ m rest, modes l = m :: rest ∧ l.count m = maxCount l ∧
      (∀ v ∈ l, l.count v = maxCount l → m ≤ v) := by
  obtain ⟨x, xs, rfl⟩ := List.exists_cons_of_ne_nil hl
  have hdne : dedupKeepFirst [] (x :: xs) ≠ [] := dedupKeepFirst_ne_nil x xs
  have hmaxmem : ∃ v ∈ dedupKeepFirst [] (x :: xs),
      (x :: xs).count v = maxCount (x :: xs) := by
    rcases foldr_max_mem ((dedupKeepFirst [] (x :: xs)).map
        (fun v => (x :: xs).count v)) (by simpa using hdne) with hmem | hzero
    · obtain ⟨v, hv, hcnt⟩ := List.mem_map.mp hmem
      exact ⟨v, hv, hcnt⟩
    · exfalso
      have hxmem : x ∈ dedupKeepFirst [] (x :: xs) :=
        mem_dedup_of_mem _ x (by simp)
      have hle : (x :: xs).count x ≤ maxCount (x :: xs) :=
        count_le_maxCount _ x (by simp)
      have hpos : 0 < (x :: xs).count x := by
        rw [List.count_cons_self]; omega
      unfold maxCount at hle
      omega
  obtain ⟨v0, hv0mem, hv0cnt⟩ := hmaxmem
  have hfne : (dedupKeepFirst [] (x :: xs)).filter
      (fun v => (x :: xs).count v = maxCount (x :: xs)) ≠ [] := by
    intro hnil
    have : v0 ∈ (dedupKeepFirst [] (x :: xs)).filter
        (fun v => (x :: xs).count v = maxCount (x :: xs)) :=
      List.mem_filter.mpr ⟨hv0mem, by simp [hv0cnt]⟩
    rw [hnil] at this
    simp at this
  have hperm : List.Perm (modes (x :: xs))
      ((dedupKeepFirst [] (x :: xs)).filter
        (fun v => (x :: xs).count v = maxCount (x :: xs))) :=
    List.perm_insertionSort _ _
  have hmne : modes (x :: xs) ≠ [] := by
    intro hnil
    rw [hnil] at hperm
    exact hfne (List.Perm.nil_eq hperm).symm
  obtain ⟨m, rest, hmr⟩ := List.exists_cons_of_ne_nil hmne
  have hsorted : List.Sorted (fun a b => a ≤ b) (modes (x :: xs)) :=
    List.sorted_insertionSort _ _
  refine ⟨m, rest, hmr, ?_, ?_⟩
  · have hmmem : m ∈ modes (x :: xs) := by rw [hmr]; simp
    have := List.mem_filter.mp (hperm.mem_iff.mp hmmem)
    simpa using this.2
  · intro v hv hcnt
    have hvd : v ∈ dedupKeepFirst [] (x :: xs) := mem_dedup_of_mem _ v hv
    have hvf : v ∈ modes (x :: xs) :=
      hperm.mem_iff.mpr (List.mem_filter.mpr ⟨hvd, by simp [hcnt]⟩)
    rw [hmr] at hvf hsorted
    rcases List.mem_cons.mp hvf with rfl | hvr
    · exact le_refl v
    · exact (List.sorted_cons.mp hsorted).1 v hvr

/-! ## Batching arithmetic -/

theorem ceil_characterize (n bs : ℕ) (hbs : 0 < bs) :
    n ≤ bs * ((n + bs - 1) / bs) ∧ bs * ((n + bs - 1) / bs) < n + bs := by
  have h1 := Nat.div_add_mod (n + bs - 1) bs
  have h2 := Nat.mod_lt (n + bs - 1) hbs
  omega

theorem batches_join {α : Type} (bs : ℕ) (hbs : 0 < bs) :
    ∀ (n : ℕ) (l : List α), l.length = n →
      ((List.range ((l.length + bs - 1) / bs)).map
        (fun j => (l.drop (j * bs)).take bs)).flatten = l := by
  intro n
  induction n using Nat.strong_induction_on with
  | _ n ih =>
    intro l hlen
    by_cases hl0 : l.length = 0
    · have hz : (l.length + bs - 1) / bs = 0 := by
        rw [hl0]; exact Nat.div_eq_of_lt (by omega)
      rw [hz]
      simp only [List.range_zero, List.map_nil, List.flatten_nil]
      exact (List.length_eq_zero.mp hl0).symm
    · have hn1 : 1 ≤ l.length := by omega
      have hk : (l.length + bs - 1) / bs = (l.length - 1) / bs + 1 := by
        have he : l.length + bs - 1 = (l.length - 1) + bs := by omega
        rw [he, Nat.add_div_right _ hbs]
      have hk' : (l.length - 1) / bs =
          ((l.drop bs).length + bs - 1) / bs := by
        rw [List.length_drop]
        by_cases hbl : bs ≤ l.length
        · congr 1
          omega
        · have e1 : l.length - 1 < bs := by omega
          have e2 : l.length - bs = 0 := by omega
          rw [e2, Nat.div_eq_of_lt e1, Nat.div_eq_of_lt (by omega)]
      rw [hk, List.range_succ_eq_map, List.map_cons, List.map_map,
        List.flatten_cons]
      have hhead : (l.drop (0 * bs)).take bs = l.take bs := by
        norm_num
      rw [hhead]
      have htail : (List.range ((l.length - 1) / bs)).map
          ((fun j => (l.drop (j * bs)).take bs) ∘ Nat.succ) =
          (List.range (((l.drop bs).length + bs - 1) / bs)).map
            (fun j => ((l.drop bs).drop (j * bs)).take bs) := by
        rw [← hk']
        apply List.map_congr_left
        intro j _
        simp only [Function.comp_apply]
        rw [List.drop_drop]
        congr 2
        simp [Nat.succ_eq_add_one]
        ring
      rw [htail, ih (l.drop bs).length
        (by rw [List.length_drop]; omega) (l.drop bs) rfl]
      exact List.take_append_drop bs l

/-! ## process_data support lemmas -/

theorem process_data_pos (invoke : String → Except String String)
    (rowText : ℕ → Row → String) (rows : List Row) (batch_size : ℤ)
    (h : 0 < batch_size) :
    process_data invoke rowText rows batch_size =
      .ok ((List.range
          ((rows.length + batch_size.toNat - 1) / batch_size.toNat)).map
        (fun j => batchResultAt invoke rowText rows batch_size.toNat
          (j * batch_size.toNat))) := by
  unfold process_data
  rw [if_neg (by omega), if_neg (by omega)]
  simp only [List.map_map]
  rfl

theorem batchResultAt_batch_number (invoke : String → Except String String)
    (rowText : ℕ → Row → String) (rows : List Row) (bs i : ℕ) :
    (batchResultAt invoke rowText rows bs i).batch_number = i / bs + 1 := by
  cases hcase : invoke (promptFor rowText i ((rows.drop i).take bs)) <;>
    simp [batchResultAt, hcase]

theorem batchResultAt_rows_processed
    (invoke : String → Except String String)
    (rowText : ℕ → Row → String) (rows : List Row) (bs i : ℕ) :
    (batchResultAt invoke rowText rows bs i).rows_processed =
      ((rows.drop i).take bs).length := by
  cases hcase : invoke (promptFor rowText i ((rows.drop i).take bs)) <;>
    simp [batchResultAt, hcase]

/-! ## Missing-column and IQR support lemmas -/

theorem findIdx?_aux_eq_none (names : List String) (c : String)
    (h : c ∉ names) :
    ∀ i, List.findIdx? (fun nm => nm = c) names i = none := by
  induction names with
  | nil => intro i; rfl
  | cons a as ih =>
    intro i
    have ha : ¬(a = c) :=
      fun e => h (by rw [e]; exact List.mem_cons_self c as)
    rw [List.findIdx?_cons, if_neg (by simp [ha])]
    exact ih (fun hm => h (List.mem_cons_of_mem a hm)) (i + 1)

theorem findIdx?_eq_none_of_not_mem (names : List String) (c : String)
    (h : c ∉ names) :
    List.findIdx? (fun nm => nm = c) names = none :=
  findIdx?_aux_eq_none names c h 0

theorem iqrStep_rows_sublist (t : Table) (c : String) (th : ℚ) :
    (iqrStep th t c).rows.Sublist t.rows := by
  unfold iqrStep
  cases hidx : List.findIdx? (fun nm => nm = c) t.names with
  | none => exact List.Sublist.refl _
  | some j =>
    dsimp only
    split_ifs
    · exact List.Sublist.refl _
    · exact List.filter_sublist _
    · exact List.Sublist.refl _

theorem foldl_iqr_rows_sublist (columns : List String) (t : Table)
    (th : ℚ) :
    (columns.foldl (iqrStep th) t).rows.Sublist t.rows := by
  induction columns generalizing t with
  | nil => exact List.Sublist.refl _
  | cons c cs ih =>
    simp only [List.foldl_cons]
    exact (ih (iqrStep th t c)).trans (iqrStep_rows_sublist t c th)

theorem keep_bool_iff (v lo hi : ℚ) :
    (!(decide (v < lo) || decide (hi < v))) = decide (lo ≤ v ∧ v ≤ hi) := by
  by_cases h1 : v < lo
  · simp [h1, not_le.mpr h1]
  · by_cases h2 : hi < v
    · simp [h1, h2, not_le.mpr h2]
    · simp [h1, h2, not_lt.mp h1, not_lt.mp h2]

/-! ## Claim theorems -/

/-- C3 (amended): `process_data` with `batch_size = 0` fails up front
with the invalid-argument error `range()` raises, before any batch is
processed and uniformly in the capability (so the capability is never
invoked); but a **negative** `batch_size` does not fail: `range(0, n,
step)` with negative `step` is empty, so the call silently returns an
empty result list. -/
theorem C3_nonpositive_batch_size (invoke : String → Except String String)
    (rowText : ℕ → Row → String) (rows : List Row) (batch_size : ℤ) :
    (batch_size = 0 → process_data invoke rowText rows batch_size =
      .error "range() arg 3 must not be zero") ∧
    (batch_size < 0 → process_data invoke rowText rows batch_size =
      .ok []) := by
  constructor
  · intro h
    subst h
    rfl
  · intro h
    unfold process_data
    rw [if_neg (by omega), if_pos h]

/-- Witness for C3 at concrete inputs. -/
theorem C3_nonpositive_batch_size_witness :
    process_data capOk rowTextC rows3 0 =
      .error "range() arg 3 must not be zero" ∧
    process_data capOk rowTextC rows3 (-1) = .ok [] :=
  ⟨(C3_nonpositive_batch_size capOk rowTextC rows3 0).1 rfl,
   (C3_nonpositive_batch_size capOk rowTextC rows3 (-1)).2 (by decide)⟩

/-- Counterexample to C3 as stated: with `batch_size = -1` (which is
`≤ 0`) the call does **not** fail — it returns an empty success value. -/
theorem C3_counterexample :
    process_data capOk rowTextC rows3 (-1) = .ok [] := by
  rfl

/-- C7 (amended): an unrecognized strategy name is **not** a no-op and
reports nothing; the `else` fallback of `handle_missing_values` forward
fills every selected column that contains a null, exactly as strategy
`ffill` would. -/
theorem C7_unknown_strategy_fallback (t : Table) (strategy : String)
    (columns : List ℕ)
    (hs : strategy ∉
      (["mean", "median", "mode", "ffill", "bfill", "drop"] : List String)) :
    handle_missing_values t strategy columns =
      handle_missing_values t "ffill" columns := by
  simp only [List.mem_cons, List.not_mem_nil, or_false] at hs
  push_neg at hs
  obtain ⟨h1, h2, h3, h4, h5, h6⟩ := hs
  have hstep : ∀ u j, hmvCol strategy u j = hmvCol "ffill" u j := by
    intro u j
    rw [hmvCol_ffill_eq]
    by_cases hnull : colHasNull (getCol u j)
    · simp [hmvCol, hnull, h1, h2, h3, h4, h5, h6]
    · simp [hmvCol, hnull]
  unfold handle_missing_values
  have hfun : hmvCol strategy = hmvCol "ffill" :=
    funext fun u => funext fun j => hstep u j
  rw [hfun]

/-- Witness for C7 at the concrete strategy `"banana"`. -/
theorem C7_unknown_strategy_fallback_witness :
    ("banana" ∉
      (["mean", "median", "mode", "ffill", "bfill", "drop"] : List String)) ∧
    handle_missing_values t7w "banana" [0] =
      handle_missing_values t7w "ffill" [0] :=
  ⟨by decide, C7_unknown_strategy_fallback t7w "banana" [0] (by decide)⟩

/-- Counterexample to C7 as stated: under the unknown strategy
`"banana"` the table is **not** left unchanged — the null is forward
filled. -/
theorem C7_counterexample :
    handle_missing_values t7w "banana" [0] ≠ t7w ∧
    handle_missing_values t7w "banana" [0] =
      handle_missing_values t7w "ffill" [0] := by
  decide

/-- C8 (amended): a named column that is absent from the table does not
make the call fail.  `remove_outliers` skips it silently (membership
check in the IQR loop, the `numeric_cols` filter in the zscore branch)
and returns the frame unchanged; `fix_data_types` catches the lookup
error, records a could-not-convert message for that column, and
continues — its returned frame is likewise unchanged. -/
theorem C8_missing_column_skipped (t : Table) (c : String) (tag : String)
    (method : String) (th : ℚ)
    (conv : String → List (Option ℚ) →
      Except String (List (Option ℚ) × DType))
    (h : c ∉ t.names) :
    remove_outliers t [c] method th = t ∧
    fix_data_types conv t [(c, tag)] =
      (t, ["Could not convert column " ++ c ++ " to type " ++ tag]) := by
  have hidx : List.findIdx? (fun nm => nm = c) t.names = none :=
    findIdx?_eq_none_of_not_mem t.names c h
  constructor
  · unfold remove_outliers
    by_cases h1 : method = "iqr"
    · rw [if_pos h1]
      show iqrStep th t c = t
      unfold iqrStep
      rw [hidx]
    · rw [if_neg h1]
      by_cases h2 : method = "zscore"
      · rw [if_pos h2]
        have hsel : numericSel t [c] = [] := by
          simp [numericSel, hidx]
        simp [hsel]
      · rw [if_neg h2]
  · simp [fix_data_types, hidx]

/-- Witness for C8 at a concrete absent column. -/
theorem C8_missing_column_skipped_witness :
    ("ghost" ∉ t8.names) ∧
    remove_outliers t8 ["ghost"] "iqr" (3/2) = t8 ∧
    fix_data_types convC t8 [("ghost", "int")] =
      (t8, ["Could not convert column " ++ "ghost" ++ " to type " ++ "int"]) :=
  ⟨by decide,
   (C8_missing_column_skipped t8 "ghost" "int" "iqr" (3/2) convC
     (by decide)).1,
   (C8_missing_column_skipped t8 "ghost" "int" "iqr" (3/2) convC
     (by decide)).2⟩

/-- Counterexample to C8 as stated: naming the absent column `"ghost"`
does not fail either call — `remove_outliers` returns the table
unchanged and `fix_data_types` returns a normal result carrying only a
printed message. -/
theorem C8_counterexample :
    remove_outliers t8 ["ghost"] "iqr" (3/2) = t8 ∧
    fix_data_types convC t8 [("ghost", "int")] =
      (t8, ["Could not convert column ghost to type int"]) := by
  constructor
  · rfl
  · rfl

/-- C10: every fill-style strategy (`mean`, `median`, `mode`, `ffill`,
`bfill`, and the fallback branch — i.e. anything but `drop`) preserves
the row count, leaves the column names and dtypes unchanged, never
alters a cell that was non-null in the input, and leaves any column
without nulls entirely untouched. -/
theorem C10_fill_never_alters_existing (t : Table) (strategy : String)
    (columns : List ℕ) (hs : strategy ≠ "drop") :
    (handle_missing_values t strategy columns).names = t.names ∧
    (handle_missing_values t strategy columns).dtypes = t.dtypes ∧
    (handle_missing_values t strategy columns).rows.length =
      t.rows.length ∧
    (∀ i j v, cellAt t i j = some v →
      cellAt (handle_missing_values t strategy columns) i j = some v) ∧
    (∀ j, colHasNull (getCol t j) = false →
      getCol (handle_missing_values t strategy columns) j = getCol t j) :=
  preservesNN_handle_missing_values t strategy columns hs

/-- Witness for C10 at a concrete table and the `mean` strategy. -/
theorem C10_fill_never_alters_existing_witness :
    ("mean" ≠ "drop") ∧
    ((handle_missing_values t10 "mean" [0, 1]).names = t10.names ∧
     (handle_missing_values t10 "mean" [0, 1]).dtypes = t10.dtypes ∧
     (handle_missing_values t10 "mean" [0, 1]).rows.length =
       t10.rows.length ∧
     (∀ i j v, cellAt t10 i j = some v →
       cellAt (handle_missing_values t10 "mean" [0, 1]) i j = some v) ∧
     (∀ j, colHasNull (getCol t10 j) = false →
       getCol (handle_missing_values t10 "mean" [0, 1]) j = getCol t10 j)) :=
  ⟨by decide, C10_fill_never_alters_existing t10 "mean" [0, 1] (by decide)⟩

/-- C4 (amended): the default pipeline `clean_data` (remove duplicates,
normalize names, forward-fill) is idempotent on every table whose first
pass yields a duplicate-free frame with normalization-fixed names; the
forward-fill sub-step is idempotent unconditionally.  In general the
pipeline is **not** idempotent, because forward-fill runs *after*
duplicate removal and can create new duplicate rows that only a second
pass removes. -/
theorem C4_clean_conditional_idempotence (t : Table) (hwf : t.WF)
    (h1 : remove_duplicates (clean_data t) = clean_data t)
    (h2 : clean_column_names (clean_data t) = clean_data t) :
    clean_data (clean_data t) = clean_data t := by
  conv_lhs => rw [clean_data]
  rw [h1, h2]
  exact hmv_ffill_idem (clean_column_names (remove_duplicates t))
    (WF_clean_column_names _ (WF_remove_duplicates _ hwf))

/-- Witness for C4 at a concrete duplicate-free, null-free table. -/
theorem C4_clean_conditional_idempotence_witness :
    t4w.WF ∧
    remove_duplicates (clean_data t4w) = clean_data t4w ∧
    clean_column_names (clean_data t4w) = clean_data t4w ∧
    clean_data (clean_data t4w) = clean_data t4w :=
  ⟨by decide, by decide, by decide,
   C4_clean_conditional_idempotence t4w (by decide) (by decide) (by decide)⟩

/-- Counterexample to C4 as stated: on the table with rows
`[[1], [null]]` forward-fill turns the second row into a duplicate of
the first, so the second pass removes it and
`clean(clean(T)) ≠ clean(T)`. -/
theorem C4_counterexample :
    clean_data (clean_data t0c) ≠ clean_data t0c := by
  decide

/-- C5 (amended): `mode` imputation fills every null of a column (that
has a null and at least one non-null value) with the head of pandas'
ascending-sorted mode list — i.e. the **smallest** value among the tied
modes, not the one appearing first in first-occurrence order.  The fill
value is a true mode (its multiplicity is maximal) and is ≤ every tied
mode; the whole computation is a pure function, hence deterministic
across runs. -/
theorem C5_mode_tiebreak_smallest (t : Table) (j : ℕ) (hwf : t.WF)
    (hj : j < t.names.length)
    (hnull : colHasNull (getCol t j) = true)
    (hvals : nonNulls (getCol t j) ≠ []) :
    ∃ m rest, modes (nonNulls (getCol t j)) = m :: rest ∧
      getCol (handle_missing_values t "mode" [j]) j =
        fillna (getCol t j) m ∧
      (nonNulls (getCol t j)).count m = maxCount (nonNulls (getCol t j)) ∧
      (∀ v ∈ nonNulls (getCol t j),
        (nonNulls (getCol t j)).count v = maxCount (nonNulls (getCol t j)) →
        m ≤ v) := by
  obtain ⟨m, rest, hmr, hcnt, hmin⟩ := modes_head_spec _ hvals
  refine ⟨m, rest, hmr, ?_, hcnt, hmin⟩
  show getCol (hmvCol "mode" t j) j = fillna (getCol t j) m
  have hstep : hmvCol "mode" t j = setCol t j (fillWithMode (getCol t j)) := by
    simp [hmvCol, hnull]
  rw [hstep, getCol_setCol_self t j _
    ((fillWithMode_length _).trans (getCol_length t j))
    (fun r hr => by rw [hwf r hr]; exact hj)]
  unfold fillWithMode
  rw [hmr]

/-- Witness for C5 at the spec's example column `[1, 2, 2, 1, null]`
(tied modes 1 and 2; the code fills with 1). -/
theorem C5_mode_tiebreak_smallest_witness :
    t5w.WF ∧ 0 < t5w.names.length ∧
    colHasNull (getCol t5w 0) = true ∧ nonNulls (getCol t5w 0) ≠ [] ∧
    (∃ m rest, modes (nonNulls (getCol t5w 0)) = m :: rest ∧
      getCol (handle_missing_values t5w "mode" [0]) 0 =
        fillna (getCol t5w 0) m ∧
      (nonNulls (getCol t5w 0)).count m =
        maxCount (nonNulls (getCol t5w 0)) ∧
      (∀ v ∈ nonNulls (getCol t5w 0),
        (nonNulls (getCol t5w 0)).count v =
          maxCount (nonNulls (getCol t5w 0)) → m ≤ v)) :=
  ⟨by decide, by decide, by decide, by decide,
   C5_mode_tiebreak_smallest t5w 0 (by decide) (by decide) (by decide)
     (by decide)⟩

/-- Counterexample to C5 as stated: on column `[2, 2, 1, 1, null]` the
tied modes are 2 and 1; the spec's first-occurrence tie-break picks 2,
but the code fills the null with 1 (the smallest tied mode). -/
theorem C5_counterexample :
    modeFirstOccSpec (nonNulls (getCol t5c 0)) = some 2 ∧
    cellAt (handle_missing_values t5c "mode" [0]) 4 0 = some 1 ∧
    (some (2 : ℚ) : Option ℚ) ≠ some 1 := by
  decide

/-- C6 (amended): in the zscore branch of `remove_outliers`, a selected
numeric column whose population variance is **zero** makes every row's
z-score NaN, and `NaN < threshold` is false — so **all** rows are
dropped, not none (no divide-by-zero guard exists).  When every selected
numeric column is null-free with nonzero variance and the threshold is
positive, the branch keeps exactly the rows satisfying
`(x - mean)² < threshold² · var` jointly across the selected columns,
which is equivalent to the spec's `|x - mean| / stddev < threshold`. -/
theorem C6_zscore_zero_spread (t : Table) (columns : List String) (th : ℚ) :
    (∀ j ∈ numericSel t columns, varQ (nonNulls (getCol t j)) = 0 →
      (remove_outliers t columns "zscore" th).rows = []) ∧
    ((∀ j ∈ numericSel t columns, colHasNull (getCol t j) = false ∧
        varQ (nonNulls (getCol t j)) ≠ 0) → 0 < th →
      (remove_outliers t columns "zscore" th).rows =
        t.rows.filter (fun r => (numericSel t columns).all (fun j =>
          decide ((cellNum r j - meanQ (nonNulls (getCol t j))) ^ 2 <
            th ^ 2 * varQ (nonNulls (getCol t j)))))) ∧
    (∀ x m v : ℚ, 0 < v → 0 < th →
      ((x - m) ^ 2 < th ^ 2 * v ↔
        |(x : ℝ) - (m : ℝ)| / Real.sqrt (v : ℝ) < (th : ℝ))) := by
  refine ⟨?_, ?_, ?_⟩
  · intro j hj hvar
    have hne : ¬((numericSel t columns).isEmpty = true) := by
      intro he
      rw [List.isEmpty_iff] at he
      rw [he] at hj
      simp at hj
    unfold remove_outliers
    rw [if_neg (by decide), if_pos rfl]
    simp only [hne, if_false, Bool.false_eq_true]
    rw [List.filter_eq_nil]
    intro r hr hkeep
    simp only [zscoreKeep] at hkeep
    have hfj := List.all_eq_true.mp hkeep j hj
    by_cases hn : colHasNull (getCol t j) <;> simp [hn, hvar] at hfj
  · intro hgood hth
    unfold remove_outliers
    rw [if_neg (by decide), if_pos rfl]
    by_cases hje : (numericSel t columns).isEmpty
    · simp only [hje, if_true]
      rw [List.isEmpty_iff] at hje
      rw [hje]
      simp [List.filter_true]
    · simp only [hje, if_false, Bool.false_eq_true]
      apply List.filter_congr
      intro r hr
      simp only [zscoreKeep]
      apply all_congr_of_mem
      intro j hj
      obtain ⟨hn, hv⟩ := hgood j hj
      simp [hn, hv, hth]
  · intro x m v hv hth
    have hv' : (0:ℝ) < (v:ℝ) := by exact_mod_cast hv
    have hth' : (0:ℝ) < (th:ℝ) := by exact_mod_cast hth
    have hs : (0:ℝ) < Real.sqrt (v:ℝ) := Real.sqrt_pos.mpr hv'
    have hss : Real.sqrt (v:ℝ) * Real.sqrt (v:ℝ) = (v:ℝ) :=
      Real.mul_self_sqrt hv'.le
    rw [div_lt_iff hs]
    constructor
    · intro h
      have h' : ((x:ℝ) - (m:ℝ))^2 < (th:ℝ)^2 * (v:ℝ) := by
        exact_mod_cast h
      nlinarith [sq_abs ((x:ℝ) - (m:ℝ)), abs_nonneg ((x:ℝ) - (m:ℝ)),
        mul_pos hth' hs, sq_nonneg (|(x:ℝ) - (m:ℝ)| - (th:ℝ) * Real.sqrt (v:ℝ))]
    · intro h
      have h' : ((x:ℝ) - (m:ℝ))^2 < (th:ℝ)^2 * (v:ℝ) := by
        nlinarith [sq_abs ((x:ℝ) - (m:ℝ)), abs_nonneg ((x:ℝ) - (m:ℝ)), hss]
      exact_mod_cast h'

/-- Witness for C6: a constant column drops all 3 rows; a `[1,2,3]`
column with variance 2/3 follows the joint filter; the squared predicate
matches the z-score inequality at `x=1, mean=2, var=2/3`. -/
theorem C6_zscore_zero_spread_witness :
    (remove_outliers t6 ["a"] "zscore" (3/2)).rows = [] ∧
    ((remove_outliers t6b ["a"] "zscore" (3/2)).rows =
      t6b.rows.filter (fun r => (numericSel t6b ["a"]).all (fun j =>
        decide ((cellNum r j - meanQ (nonNulls (getCol t6b j))) ^ 2 <
          (3/2 : ℚ) ^ 2 * varQ (nonNulls (getCol t6b j)))))) ∧
    (((1 : ℚ) - 2) ^ 2 < (3/2 : ℚ) ^ 2 * (2/3 : ℚ) ↔
      |((1 : ℚ) : ℝ) - ((2 : ℚ) : ℝ)| / Real.sqrt (((2/3 : ℚ)) : ℝ) <
        (((3/2 : ℚ)) : ℝ)) :=
  ⟨(C6_zscore_zero_spread t6 ["a"] (3/2)).1 0 (by decide) (by decide!),
   (C6_zscore_zero_spread t6b ["a"] (3/2)).2.1 (by decide!) (by norm_num),
   (C6_zscore_zero_spread t6b ["a"] (3/2)).2.2 1 2 (2/3) (by norm_num)
     (by norm_num)⟩

/-- Counterexample to C6 as stated: the zero-spread column `[5, 5, 5]`
loses **all** three rows under the zscore method, while the claim says
no rows are dropped for that column. -/
theorem C6_counterexample :
    (remove_outliers t6 ["a"] "zscore" (3/2)).rows = [] ∧
    t6.rows.length = 3 := by
  decide!

/-- C9: IQR outlier removal.  On the spec's example column
`[1,2,3,4,5,100]` with threshold 1.5, only the row holding 100 is
dropped.  In general the IQR branch processes the selected columns
sequentially (each filtered frame is the next column's input, so a row
survives only by being within bounds at every evaluated stage), only
ever removes rows (order-preserving sublist), and for one present
numeric column with a non-empty value set it keeps exactly the rows
whose value lies inside `[Q1 - th*IQR, Q3 + th*IQR]`, with Q1/Q3 the
linearly interpolated 25th/75th percentiles (null cells are kept). -/
theorem C9_iqr_outlier_removal (t : Table) (columns : List String)
    (c : String) (th : ℚ) :
    (remove_outliers tEx ["v"] "iqr" (3/2)).rows =
      [[some 1], [some 2], [some 3], [some 4], [some 5]] ∧
    remove_outliers t (c :: columns) "iqr" th =
      remove_outliers (iqrStep th t c) columns "iqr" th ∧
    (remove_outliers t columns "iqr" th).rows.Sublist t.rows ∧
    (∀ j, List.findIdx? (fun nm => nm = c) t.names = some j →
      isNumericD (dtypeAt t j) = true → nonNulls (getCol t j) ≠ [] →
      (iqrStep th t c).rows = t.rows.filter (fun r =>
        match r.getD j none with
        | none => true
        | some v => decide (q1Of t j - th * iqrOf t j ≤ v ∧
            v ≤ q3Of t j + th * iqrOf t j))) := by
  refine ⟨by decide!, by simp [remove_outliers], ?_, ?_⟩
  · unfold remove_outliers
    rw [if_pos rfl]
    exact foldl_iqr_rows_sublist columns t th
  · intro j hidx hnum hvals
    unfold iqrStep
    rw [hidx]
    dsimp only
    rw [if_pos hnum, if_neg (by simpa [List.isEmpty_iff] using hvals)]
    apply List.filter_congr
    intro r hr
    cases hcell : r.getD j none with
    | none => simp [hcell]
    | some v =>
      simp only [hcell]
      exact keep_bool_iff v _ _

/-- Witness for C9's conditional exact-bounds characterization, at the
spec's example table. -/
theorem C9_iqr_outlier_removal_witness :
    (iqrStep (3/2) tEx "v").rows = tEx.rows.filter (fun r =>
      match r.getD 0 none with
      | none => true
      | some v => decide (q1Of tEx 0 - (3/2 : ℚ) * iqrOf tEx 0 ≤ v ∧
          v ≤ q3Of tEx 0 + (3/2 : ℚ) * iqrOf tEx 0)) :=
  (C9_iqr_outlier_removal tEx [] "v" (3/2)).2.2.2 0 (by decide) (by decide)
    (by decide)

/-- C2: batch aggregation conservation.  For positive `batch_size`,
`process_data` succeeds with exactly `⌈row_count / batch_size⌉` results
(characterized by `n ≤ bs·k < n + bs`), numbered contiguously from 1 in
traversal order; the per-result `rows_processed` are precisely the
lengths of the contiguous slices, the slices concatenate back to the
whole row list (only the last may be shorter), and the `rows_processed`
sum equals the table's row count. -/
theorem C2_batch_aggregation_conservation
    (invoke : String → Except String String) (rowText : ℕ → Row → String)
    (rows : List Row) (batch_size : ℤ) (h : 0 < batch_size) :
    ∃ results, process_data invoke rowText rows batch_size = .ok results ∧
      results.length =
        (rows.length + batch_size.toNat - 1) / batch_size.toNat ∧
      rows.length ≤ batch_size.toNat * results.length ∧
      batch_size.toNat * results.length < rows.length + batch_size.toNat ∧
      results.map (fun r => r.batch_number) = List.range' 1 results.length ∧
      results.map (fun r => r.rows_processed) =
        (List.range results.length).map (fun j =>
          ((rows.drop (j * batch_size.toNat)).take batch_size.toNat).length) ∧
      ((List.range results.length).map (fun j =>
        (rows.drop (j * batch_size.toNat)).take batch_size.toNat)).flatten =
        rows ∧
      (results.map (fun r => r.rows_processed)).sum = rows.length := by
  have hbs : 0 < batch_size.toNat := by omega
  have hflat := batches_join batch_size.toNat hbs rows.length rows rfl
  have hrp : ((List.range
        ((rows.length + batch_size.toNat - 1) / batch_size.toNat)).map
      (fun j => batchResultAt invoke rowText rows batch_size.toNat
        (j * batch_size.toNat))).map (fun r => r.rows_processed) =
      (List.range
        ((rows.length + batch_size.toNat - 1) / batch_size.toNat)).map
        (fun j => ((rows.drop (j * batch_size.toNat)).take
          batch_size.toNat).length) := by
    rw [List.map_map]
    apply List.map_congr_left
    intro j _
    simp only [Function.comp_apply]
    exact batchResultAt_rows_processed invoke rowText rows _ _
  refine ⟨_, process_data_pos invoke rowText rows batch_size h,
    by simp, ?_, ?_, ?_, ?_, ?_, ?_⟩
  · simp only [List.length_map, List.length_range]
    exact (ceil_characterize rows.length batch_size.toNat hbs).1
  · simp only [List.length_map, List.length_range]
    exact (ceil_characterize rows.length batch_size.toNat hbs).2
  · simp only [List.length_map, List.length_range, List.map_map]
    rw [List.range'_eq_map_range]
    apply List.map_congr_left
    intro j _
    simp only [Function.comp_apply]
    rw [batchResultAt_batch_number, Nat.mul_div_cancel j hbs]
    exact Nat.add_comm j 1
  · simp only [List.length_map, List.length_range]
    exact hrp
  · simp only [List.length_map, List.length_range]
    exact hflat
  · rw [hrp]
    have h2 : (List.range
          ((rows.length + batch_size.toNat - 1) / batch_size.toNat)).map
        (fun j => ((rows.drop (j * batch_size.toNat)).take
          batch_size.toNat).length) =
        ((List.range
          ((rows.length + batch_size.toNat - 1) / batch_size.toNat)).map
          (fun j => (rows.drop (j * batch_size.toNat)).take
            batch_size.toNat)).map (fun l => l.length) := by
      rw [List.map_map]
      rfl
    rw [h2, ← List.length_flatten, hflat]

/-- Witness for C2 at the spec's example: 45 rows, `batch_size = 20`,
giving 3 batches with `rows_processed = [20, 20, 5]`. -/
theorem C2_batch_aggregation_conservation_witness :
    ((0 : ℤ) < 20 ∧
      ∃ results, process_data capOk rowTextC rows45 20 = .ok results ∧
        results.length = (rows45.length + 20 - 1) / 20 ∧
        rows45.length ≤ 20 * results.length ∧
        20 * results.length < rows45.length + 20 ∧
        results.map (fun r => r.batch_number) =
          List.range' 1 results.length ∧
        results.map (fun r => r.rows_processed) =
          (List.range results.length).map (fun j =>
            ((rows45.drop (j * 20)).take 20).length) ∧
        ((List.range results.length).map (fun j =>
          (rows45.drop (j * 20)).take 20)).flatten = rows45 ∧
        (results.map (fun r => r.rows_processed)).sum = rows45.length) ∧
    (process_data capOk rowTextC rows45 20).map
        (fun l => l.map (fun r => (r.batch_number, r.rows_processed))) =
      .ok [(1, 20), (2, 20), (3, 5)] :=
  ⟨⟨by decide,
    C2_batch_aggregation_conservation capOk rowTextC rows45 20 (by decide)⟩,
   rfl⟩

/-- C1 (amended): partial-failure isolation.  For positive `batch_size`,
`process_data` always returns one result per batch: when the capability
invocation for batch `j` fails with message `e`, that batch's recorded
result carries the error description `"Error: " ++ e` as its analysis
text and processing continues with every subsequent batch; when it
succeeds with `s`, the analysis text is `s`.  The recorded results carry
only `batch_number`, `rows_processed` and the analysis text — the
source's dicts have **no** `failed` key, so failure is observable only
through the analysis text. -/
theorem C1_batch_failure_isolation
    (invoke : String → Except String String) (rowText : ℕ → Row → String)
    (rows : List Row) (batch_size : ℤ) (h : 0 < batch_size) :
    ∃ results, process_data invoke rowText rows batch_size = .ok results ∧
      results.length =
        (rows.length + batch_size.toNat - 1) / batch_size.toNat ∧
      ∀ j, ∀ hj : j < results.length,
        (∀ e, invoke (promptFor rowText (j * batch_size.toNat)
            ((rows.drop (j * batch_size.toNat)).take batch_size.toNat)) =
              .error e →
          results.get ⟨j, hj⟩ = ⟨j + 1,
            ((rows.drop (j * batch_size.toNat)).take
              batch_size.toNat).length, "Error: " ++ e⟩) ∧
        (∀ s, invoke (promptFor rowText (j * batch_size.toNat)
            ((rows.drop (j * batch_size.toNat)).take batch_size.toNat)) =
              .ok s →
          results.get ⟨j, hj⟩ = ⟨j + 1,
            ((rows.drop (j * batch_size.toNat)).take
              batch_size.toNat).length, s⟩) := by
  have hbs : 0 < batch_size.toNat := by omega
  refine ⟨_, process_data_pos invoke rowText rows batch_size h, by simp,
    ?_⟩
  intro j hj
  have hget : ((List.range
        ((rows.length + batch_size.toNat - 1) / batch_size.toNat)).map
      (fun i => batchResultAt invoke rowText rows batch_size.toNat
        (i * batch_size.toNat))).get ⟨j, hj⟩ =
      batchResultAt invoke rowText rows batch_size.toNat
        (j * batch_size.toNat) := by
    rw [List.get_map, List.get_range]
  constructor
  · intro e he
    rw [hget]
    simp only [batchResultAt, he, Nat.mul_div_cancel j hbs]
  · intro s hs
    rw [hget]
    simp only [batchResultAt, hs, Nat.mul_div_cancel j hbs]

set_option maxRecDepth 8192 in
/-- Witness for C1: three singleton batches over `rows3`, with `capA`
failing exactly on the second batch. -/
theorem C1_batch_failure_isolation_witness :
    ((0 : ℤ) < 1) ∧
    (∃ results, process_data capA rowTextC rows3 1 = .ok results ∧
      results.length = (rows3.length + 1 - 1) / 1 ∧
      ∀ j, ∀ hj : j < results.length,
        (∀ e, capA (promptFor rowTextC (j * 1)
            ((rows3.drop (j * 1)).take 1)) = .error e →
          results.get ⟨j, hj⟩ =
            ⟨j + 1, ((rows3.drop (j * 1)).take 1).length, "Error: " ++ e⟩) ∧
        (∀ s, capA (promptFor rowTextC (j * 1)
            ((rows3.drop (j * 1)).take 1)) = .ok s →
          results.get ⟨j, hj⟩ =
            ⟨j + 1, ((rows3.drop (j * 1)).take 1).length, s⟩)) ∧
    capA (promptFor rowTextC 1 (( rows3.drop 1).take 1)) = .error "boom" ∧
    process_data capA rowTextC rows3 1 =
      .ok [⟨1, 1, "ok"⟩, ⟨2, 1, "Error: boom"⟩, ⟨3, 1, "ok"⟩] :=
  ⟨by decide,
   C1_batch_failure_isolation capA rowTextC rows3 1 (by decide),
   rfl, rfl⟩

set_option maxRecDepth 8192 in
/-- Counterexample to C1 as stated: no `failed` flag exists in the
recorded results.  A run whose capability fails on batch 2 and a run
whose capability succeeds on every batch (answering with the very same
text) produce **identical** output lists, so no field of the recorded
results can be `true` in the first run and `false` in the second as the
claim requires. -/
theorem C1_counterexample :
    process_data capA rowTextC rows3 1 = process_data capB rowTextC rows3 1 ∧
    process_data capA rowTextC rows3 1 =
      .ok [⟨1, 1, "ok"⟩, ⟨2, 1, "Error: boom"⟩, ⟨3, 1, "ok"⟩] ∧
    capA p2 = .error "boom" ∧
    capB p2 = .ok ("Error: " ++ "boom") :=
  ⟨rfl, rfl, rfl, rfl⟩
